import Mathlib

/-!
Verification development for the SE-Sync problem class (`SESyncProblem.h`).

The C++ header declares the class `SESyncProblem`, whose inline members
(`Pi_product`, `Q_product`, the accessors, the field initializers and the
default constructor) are embedded here directly from the source.  Members that
the header only declares (their bodies live in a translation unit that is not
part of the sources at hand) are modelled from the specification, and each such
definition carries a doc comment starting with `Modelled from the spec:`.

Matrices are embedded as Mathlib matrices over a field; the external sparse
linear solvers (Cholmod, SPQR, Spectra), which the specification treats as
black-box linear-algebra primitives, appear as abstract function parameters
constrained by their mathematical contracts where a claim needs them.
-/

namespace SESync

open Matrix

/-- The formulation tag of the SE-Sync problem.  `Simplified` is the
translation-implicit formulation, `Explicit` the translation-explicit one. -/
inductive Formulation where
  | Simplified : Formulation
  | Explicit : Formulation
deriving DecidableEq

/-- The cached problem data of `SESyncProblem` that the quadratic-form operators
read: the data matrices built at construction, the formulation tag, the
Cholesky/QR selector, and the two black-box sparse solvers.  Index types:
`G` indexes the rows of the reduced incidence matrix (the non-gauge poses),
`E` indexes measurements, `D` indexes the `n·d` columns of the lifted variable.
`Lsolve` stands for `L.solve` (the cached sparse Cholesky solve, which accepts
matrix right-hand sides), `QRsolve` for `QR->solve` (the cached sparse QR
solve, which accepts only single vectors). -/
structure SESyncProblemData (K G E D : Type) where
  form : Formulation
  use_Cholesky : Bool
  LGrho : Matrix D D K
  M : Matrix D D K
  Ared_SqrtOmega : Matrix G E K
  SqrtOmega_AredT : Matrix E G K
  SqrtOmega_T : Matrix E D K
  TT_SqrtOmega : Matrix D E K
  Lsolve : ∀ {C : Type}, Matrix G C K → Matrix G C K
  QRsolve : (E → K) → (G → K)

variable {K G E D C : Type}

/-- Embedding of the inline member `Pi_product` (source lines 180-192): with
Cholesky, `X - SqrtOmega_AredT * L.solve(Ared_SqrtOmega * X)`; with QR, the
column-by-column loop `PiX.col(c) = X.col(c) - SqrtOmega_AredT *
QR->solve(X.col(c))`. -/
def SESyncProblemData.Pi_product [Field K] [Fintype G] [Fintype E]
    (P : SESyncProblemData K G E D) (X : Matrix E C K) : Matrix E C K :=
  if P.use_Cholesky then
    X - P.SqrtOmega_AredT * P.Lsolve (P.Ared_SqrtOmega * X)
  else
    Matrix.of fun e c =>
      X e c - (P.SqrtOmega_AredT *ᵥ P.QRsolve fun e2 => X e2 c) e

/-- Embedding of the inline member `Q_product` (source lines 197-199):
`LGrho * X + TT_SqrtOmega * Pi_product(SqrtOmega_T * X)`. -/
def SESyncProblemData.Q_product [Field K] [Fintype G] [Fintype E] [Fintype D]
    (P : SESyncProblemData K G E D) (X : Matrix D C K) : Matrix D C K :=
  P.LGrho * X + P.TT_SqrtOmega * P.Pi_product (P.SqrtOmega_T * X)

/-- Modelled from the spec: the body of `data_matrix_product` is not among the
sources at hand (the header only declares it, lines 201-210, together with its
contract).  Per the spec it returns `Q * Y` in the implicit (`Simplified`)
formulation and `M * Y` in the explicit one. -/
def SESyncProblemData.data_matrix_product [Field K] [Fintype G] [Fintype E]
    [Fintype D] (P : SESyncProblemData K G E D) (Y : Matrix D C K) :
    Matrix D C K :=
  match P.form with
  | Formulation.Simplified => P.Q_product Y
  | Formulation.Explicit => P.M * Y

/-- Modelled from the spec: the symmetric part of a square block, half the sum
of the block with its transpose; the basic block operation that the manifold
operators apply. -/
def Sym {dd : ℕ} [Field K] (P : Matrix (Fin dd) (Fin dd) K) :
    Matrix (Fin dd) (Fin dd) K :=
  (2 : K)⁻¹ • (P + Pᵀ)

/-- The i-th d-column block of an r×(n·d) matrix, with the flat column index
realized as a pair (pose index, within-block column index). -/
def blockOf {rr nn dd : ℕ} (V : Matrix (Fin rr) (Fin nn × Fin dd) K)
    (i : Fin nn) : Matrix (Fin rr) (Fin dd) K :=
  Matrix.of fun p q => V p (i, q)

/-- Modelled from the spec: the block-diagonal helper of the Stiefel product
manifold; block i of the result is
(block i of A) · Sym((block i of B)ᵀ · (block i of W)). -/
def SymBlockDiagProduct {rr nn dd : ℕ} [Field K]
    (A B W : Matrix (Fin rr) (Fin nn × Fin dd) K) :
    Matrix (Fin rr) (Fin nn × Fin dd) K :=
  Matrix.of fun p iq =>
    (blockOf A iq.1 * Sym ((blockOf B iq.1)ᵀ * blockOf W iq.1)) p iq.2

/-- Modelled from the spec: `tangent_space_projection(Y, dotY)` (declared at
source line 255) projects dotY onto the tangent space at Y block-by-block; for
each d-column block it subtracts the symmetric part of (blockᵀ · dotY-block)
applied on the right, i.e. block i becomes V_i − Y_i · Sym(Y_iᵀ · V_i). -/
def tangent_space_projection {rr nn dd : ℕ} [Field K]
    (Y V : Matrix (Fin rr) (Fin nn × Fin dd) K) :
    Matrix (Fin rr) (Fin nn × Fin dd) K :=
  V - SymBlockDiagProduct Y Y V

/-- The trace (Frobenius) inner product of two equally-shaped matrices. -/
def frobInner {α β : Type} [Fintype α] [Fintype β] [Field K]
    (A B : Matrix α β K) : K :=
  ∑ p, ∑ c, A p c * B p c

/-- A point is feasible when every d-column block has orthonormal columns. -/
def Feasible {rr nn dd : ℕ} [Field K]
    (Y : Matrix (Fin rr) (Fin nn × Fin dd) K) : Prop :=
  ∀ i, (blockOf Y i)ᵀ * blockOf Y i = 1

/-- A matrix is a tangent vector at Y when the tangent-space projection at Y
fixes it. -/
def IsTangent {rr nn dd : ℕ} [Field K]
    (Y V : Matrix (Fin rr) (Fin nn × Fin dd) K) : Prop :=
  tangent_space_projection Y V = V

/-- Modelled from the spec: `Riemannian_Hessian_vector_product(Y, nablaF_Y,
dotY)` (declared at source lines 235-237) projects the Euclidean
Hessian-vector product 2·S·dotY (acting on the transposed variable) onto the
tangent space at Y and subtracts the curvature correction, whose block i is
the i-th block of dotY scaled on the right by Sym(Y_iᵀ · (nablaF_Y)_i).  The
quadratic-form matrix S of the problem is a parameter. -/
def Riemannian_Hessian_vector_product {rr nn dd : ℕ} [Field K]
    (S : Matrix (Fin nn × Fin dd) (Fin nn × Fin dd) K)
    (Y nablaF_Y dotY : Matrix (Fin rr) (Fin nn × Fin dd) K) :
    Matrix (Fin rr) (Fin nn × Fin dd) K :=
  tangent_space_projection Y ((2 : K) • (S * dotYᵀ))ᵀ -
    SymBlockDiagProduct dotY Y nablaF_Y

/-- Modelled from the spec: `retract(Y, V)` (declared at source line 260)
moves from Y along V per block through a polar-style retraction: block i of
the result is Y_i + V_i multiplied on the right by the inverse square root of
its Gram matrix, the polar (nearest-orthonormal) factor of Y_i + V_i. -/
noncomputable def retract {rr nn dd : ℕ}
    (Y V : Matrix (Fin rr) (Fin nn × Fin dd) ℝ) :
    Matrix (Fin rr) (Fin nn × Fin dd) ℝ :=
  Matrix.of fun p iq =>
    (blockOf (Y + V) iq.1 *
      (Matrix.posSemidef_conjTranspose_mul_self (blockOf (Y + V) iq.1)).sqrt⁻¹)
      p iq.2

/-- A relative pose measurement, following the spec's data model: an edge
i → j in the pose graph with a relative rotation R, a relative translation t,
and rotational/translational precision weights kappa and tau.  The C++ type
`RelativePoseMeasurement` is declared in a header that is not among the
sources at hand. -/
structure Measurement (nposes dd : ℕ) (K : Type) where
  i : Fin nposes
  j : Fin nposes
  R : Matrix (Fin dd) (Fin dd) K
  t : Fin dd → K
  kappa : K
  tau : K

/-- Modelled from the spec: the oriented incidence matrix A of the measurement
graph — one column per measurement, −1 at the source pose row and +1 at the
target pose row (the two contributions add, so a self-loop column is zero). -/
def incidence {nposes dd : ℕ} [Field K] (meas : List (Measurement nposes dd K)) :
    Matrix (Fin nposes) (Fin meas.length) K :=
  Matrix.of fun v e =>
    (if v = (meas.get e).i then -1 else 0) + (if v = (meas.get e).j then 1 else 0)

/-- Modelled from the spec: the reduced incidence matrix, the oriented
incidence matrix with the gauge row (pose 0) dropped. -/
def reducedIncidence {nn dd : ℕ} [Field K]
    (meas : List (Measurement (nn + 1) dd K)) :
    Matrix (Fin nn) (Fin meas.length) K :=
  Matrix.of fun k e => incidence meas k.succ e

/-- Modelled from the spec: the diagonal matrix of translational precision
weights. -/
def transWeights {nposes dd : ℕ} [Field K]
    (meas : List (Measurement nposes dd K)) :
    Matrix (Fin meas.length) (Fin meas.length) K :=
  Matrix.diagonal fun e => (meas.get e).tau

/-- Modelled from the spec: the reduced-incidence Gram matrix
Ared · Ω · Aredᵀ, the matrix whose sparse factorization the constructor
builds for the orthogonal projection operator. -/
def reducedGram {nn dd : ℕ} [Field K]
    (meas : List (Measurement (nn + 1) dd K)) : Matrix (Fin nn) (Fin nn) K :=
  reducedIncidence meas * transWeights meas * (reducedIncidence meas)ᵀ

/-- One measurement connects poses u and v, in either direction. -/
def EdgeStep {nposes dd : ℕ} {K : Type} (meas : List (Measurement nposes dd K))
    (u v : Fin nposes) : Prop :=
  ∃ mu ∈ meas, (mu.i = u ∧ mu.j = v) ∨ (mu.i = v ∧ mu.j = u)

/-- The underlying measurement graph is connected: every pose is reachable
from pose 0 along measurement edges. -/
def GraphConnected {nn dd : ℕ} {K : Type}
    (meas : List (Measurement (nn + 1) dd K)) : Prop :=
  ∀ v : Fin (nn + 1), Relation.ReflTransGen (EdgeStep meas) 0 v

/-- The scalar state fields of `SESyncProblem` (source lines 45-60): the
formulation tag and the counts n, m, d and the relaxation rank r, whose
in-class initializers are n = m = d = r = 0. -/
structure SESyncState where
  form : Formulation
  n : ℕ := 0
  m : ℕ := 0
  d : ℕ := 0
  r : ℕ := 0

/-- Modelled from the spec: the measurement-list constructor (declared at
source lines 135-138).  In the implicit (`Simplified`) formulation it must
factorize the reduced-incidence Gram matrix, and construction fails with a
surfaced error when that matrix is singular (disconnected graph after
gauge-fixing); no usable problem object is returned in that case.  The result
here is the scalar state of the constructed problem or the construction-time
error. -/
def constructSESyncProblem {nn dd : ℕ} [Field K] [DecidableEq K]
    (meas : List (Measurement (nn + 1) dd K)) (formulation : Formulation)
    (r0 : ℕ) : Except String SESyncState :=
  if formulation = Formulation.Simplified ∧ (reducedGram meas).det = 0 then
    Except.error "construction failed: singular reduced incidence Gram matrix"
  else
    Except.ok { form := formulation, n := nn + 1, m := meas.length, d := dd, r := r0 }

/-- The outputs of `compute_S_minus_Lambda_min_eig` (source lines 281-285):
the two reference parameters (estimated minimum eigenvalue and eigenvector)
and the Boolean convergence flag it returns. -/
structure EigResult (K N : Type) where
  converged : Bool
  min_eigenvalue : K
  min_eigenvector : N → K

/-- The black-box Lanczos-type extremal-eigenpair solver (Spectra), which the
spec treats as an external linear-algebra primitive: from the iteration cap,
the nonnegativity tolerance, the number of Lanczos vectors and the
matrix-vector product it produces a convergence flag and an estimated
extremal eigenpair. -/
def LanczosSolver (K N : Type) : Type :=
  ℕ → K → ℕ → ((N → K) → N → K) → Bool × K × (N → K)

/-- Modelled from the spec: the body of `compute_S_minus_Lambda_min_eig`
(declared at source lines 281-285) is not among the sources at hand.  Per the
spec it runs the iterative eigen-solver against the certificate matrix-vector
product, with the caller-configurable iteration cap, nonnegativity tolerance
and Lanczos subspace size, and returns the solver's estimated minimum
eigenpair together with its convergence flag verbatim: a non-converged run is
reported as `converged = false`, never silently accepted, and no default
result is substituted. -/
def compute_S_minus_Lambda_min_eig {K N : Type} (solver : LanczosSolver K N)
    (op : (N → K) → N → K) (max_iterations : ℕ)
    (min_eigenvalue_nonnegativity_tolerance : K)
    (num_Lanczos_vectors : ℕ) : EigResult K N :=
  let out := solver max_iterations min_eigenvalue_nonnegativity_tolerance
    num_Lanczos_vectors op
  { converged := out.1, min_eigenvalue := out.2.1, min_eigenvector := out.2.2 }

/-- Modelled from the spec: the block-diagonal Lagrange-multiplier matrix
Λ assembled from its d×d per-pose blocks. -/
def blockDiagLambda {nn dd : ℕ} [Field K]
    (Lb : Fin nn → Matrix (Fin dd) (Fin dd) K) :
    Matrix (Fin nn × Fin dd) (Fin nn × Fin dd) K :=
  Matrix.of fun iq jp => if iq.1 = jp.1 then Lb iq.1 iq.2 jp.2 else 0

/-- A vector regarded as a one-column matrix, as `perform_op` treats its raw
input pointer. -/
def colMat {D K : Type} (x : D → K) : Matrix D Unit K :=
  Matrix.of fun i _ => x i

/-- Modelled from the spec: `SMinusLambdaProdFunctor.perform_op` (declared at
source line 332) computes y = (S − Λ + σ·I)·x without materializing S − Λ,
reusing `data_matrix_product`, subtracting the block-diagonal product Λ·x and
adding the spectral shift σ·x. -/
def SMinusLambdaProdFunctor.perform_op {K G E : Type} {nn dd : ℕ} [Field K]
    [Fintype G] [Fintype E]
    (P : SESyncProblemData K G E (Fin nn × Fin dd))
    (Lb : Fin nn → Matrix (Fin dd) (Fin dd) K) (sigma : K)
    (x : Fin nn × Fin dd → K) : Fin nn × Fin dd → K :=
  fun i =>
    P.data_matrix_product (colMat x) i () - (blockDiagLambda Lb *ᵥ x) i +
      sigma * x i

/-- Embedding of the default constructor `SESyncProblem() {}` (source line
132) together with the in-class field initializers (source lines 50-60): the
constructor body does nothing, so n, m, d and r keep their initial value 0;
the formulation tag is left indeterminate by the constructor and is therefore
a parameter here. -/
def defaultSESyncProblem (f : Formulation) : SESyncState :=
  { form := f, n := 0, m := 0, d := 0, r := 0 }

/-- Embedding of the accessor `formulation()` (source line 146). -/
def SESyncState.formulation (P : SESyncState) : Formulation := P.form

/-- Embedding of the accessor `num_poses()` (source line 149). -/
def SESyncState.num_poses (P : SESyncState) : ℕ := P.n

/-- Embedding of the accessor `num_measurements()` (source line 152). -/
def SESyncState.num_measurements (P : SESyncState) : ℕ := P.m

/-- Embedding of the accessor `dimension()` (source line 156). -/
def SESyncState.dimension (P : SESyncState) : ℕ := P.d

/-- Embedding of the accessor `relaxation_rank()` (source line 159). -/
def SESyncState.relaxation_rank (P : SESyncState) : ℕ := P.r

/-- Modelled from the spec: `set_relaxation_rank` (declared at source line
141) mutates the relaxation rank r — the manifold's per-factor column count —
and changes nothing else; no rebuild of the problem takes place. -/
def SESyncState.set_relaxation_rank (P : SESyncState) (rank : ℕ) : SESyncState :=
  { P with r := rank }

/-- A dense matrix with run-time shape, used to state shape facts about
operations whose output dimensions depend on the mutable problem state. -/
structure MatrixD (K : Type) where
  rows : ℕ
  cols : ℕ
  entry : ℕ → ℕ → K

/-- Modelled from the spec: `random_sample()` (declared at source line 293)
draws a random point of the domain, an r × (n·d) matrix with orthonormal
d-column blocks; the entries come from an abstract random source (a black-box
primitive), while the shape is r × (n·d) as determined by the current state. -/
def SESyncState.random_sample {K : Type} (P : SESyncState)
    (sample : ℕ → ℕ → K) : MatrixD K :=
  { rows := P.r, cols := P.n * P.d, entry := sample }

/-- A concrete one-dimensional implicit-formulation problem instance: all data
matrices are 1×1 and the two black-box solves are the exact solves of the
corresponding 1×1 systems (the Gram matrix is 2·2 = 4). -/
def exampleProblem : SESyncProblemData ℚ (Fin 1) (Fin 1) (Fin 1) where
  form := Formulation.Simplified
  use_Cholesky := true
  LGrho := Matrix.of fun _ _ => 3
  M := Matrix.of fun _ _ => 7
  Ared_SqrtOmega := Matrix.of fun _ _ => 2
  SqrtOmega_AredT := Matrix.of fun _ _ => 2
  SqrtOmega_T := Matrix.of fun _ _ => 5
  TT_SqrtOmega := Matrix.of fun _ _ => 5
  Lsolve := fun B => (4 : ℚ)⁻¹ • B
  QRsolve := fun v _ => (2 : ℚ)⁻¹ * v 0

/-- A concrete 1×1 input matrix. -/
def exampleY : Matrix (Fin 1) (Fin 1) ℚ := Matrix.of fun _ _ => 1

/-- A concrete symmetric 1×1 quadratic-form matrix on the lifted index. -/
def exampleS : Matrix (Fin 1 × Fin 1) (Fin 1 × Fin 1) ℚ := Matrix.of fun _ _ => 5

/-- A concrete feasible point of the Stiefel product St(1,2)^1. -/
def exampleYpt : Matrix (Fin 2) (Fin 1 × Fin 1) ℚ :=
  Matrix.of fun p _ => if p = 0 then 1 else 0

/-- A concrete ambient (Euclidean-gradient) matrix. -/
def exampleGrad : Matrix (Fin 2) (Fin 1 × Fin 1) ℚ := Matrix.of fun _ _ => 3

/-- A concrete tangent vector at `exampleYpt`. -/
def exampleU : Matrix (Fin 2) (Fin 1 × Fin 1) ℚ :=
  Matrix.of fun p _ => if p = 0 then 0 else 2

/-- A second concrete tangent vector at `exampleYpt`. -/
def exampleV : Matrix (Fin 2) (Fin 1 × Fin 1) ℚ :=
  Matrix.of fun p _ => if p = 0 then 0 else 7

/-- A concrete ambient matrix that is not tangent at `exampleYpt`. -/
def exampleW : Matrix (Fin 2) (Fin 1 × Fin 1) ℚ :=
  Matrix.of fun p _ => if p = 0 then 4 else 9

/-- A concrete feasible point of St(1,1)^1 over ℝ. -/
def exampleYreal : Matrix (Fin 1) (Fin 1 × Fin 1) ℝ := Matrix.of fun _ _ => 1

/-- The zero tangent vector at `exampleYreal`. -/
def exampleVreal : Matrix (Fin 1) (Fin 1 × Fin 1) ℝ := Matrix.of fun _ _ => 0

/-! ### Theorems -/

/-- C1: for every matrix Y, `data_matrix_product(Y)` returns S·Y for the
problem's quadratic-form matrix S: in the implicit (`Simplified`) formulation
it equals `LGrho * Y + TT_SqrtOmega * Pi_product(SqrtOmega_T * Y)`, and in the
explicit formulation it equals `M * Y`. -/
theorem data_matrix_product_spec [Field K] [Fintype G] [Fintype E] [Fintype D]
    (P : SESyncProblemData K G E D) (Y : Matrix D C K) :
    (P.form = Formulation.Simplified →
      P.data_matrix_product Y =
        P.LGrho * Y + P.TT_SqrtOmega * P.Pi_product (P.SqrtOmega_T * Y)) ∧
    (P.form = Formulation.Explicit → P.data_matrix_product Y = P.M * Y) := by
  constructor <;> intro h <;>
    simp [SESyncProblemData.data_matrix_product, SESyncProblemData.Q_product, h]

/-- Witness for C1 at the concrete implicit-formulation instance. -/
theorem data_matrix_product_spec_witness :
    exampleProblem.form = Formulation.Simplified ∧
    exampleProblem.data_matrix_product exampleY =
      exampleProblem.LGrho * exampleY +
        exampleProblem.TT_SqrtOmega *
          exampleProblem.Pi_product (exampleProblem.SqrtOmega_T * exampleY) :=
  ⟨rfl, (data_matrix_product_spec exampleProblem exampleY).1 rfl⟩

/-- The j-th column of a matrix product, as a matrix-vector product with the
j-th column of the right factor. -/
lemma mul_col {α β γ : Type} [Fintype β] [Field K] (M : Matrix α β K)
    (N : Matrix β γ K) (j : γ) :
    (fun i => (M * N) i j) = M *ᵥ fun i => N i j := by
  funext i
  simp [Matrix.mulVec, Matrix.mul_apply, Matrix.dotProduct]

/-- C2: on the same problem data and the same input X, the Cholesky-based
branch of `Pi_product` and the column-by-column QR-based branch compute the
same mathematical result — under exact arithmetic the two branches are equal
functions of X — given the contracts of the black-box solvers: the Cholesky
solve solves the reduced Gram system exactly, the QR solve returns the
least-squares solution of SqrtOmega_AredT · w = x (characterized by its
normal equations), and the Gram matrix is nonsingular. -/
theorem Pi_product_cholesky_qr_agree [Field K] [Fintype G] [Fintype E]
    (P : SESyncProblemData K G E D) (X : Matrix E C K)
    (hL : ∀ (C2 : Type) (B : Matrix G C2 K),
      P.Ared_SqrtOmega * P.SqrtOmega_AredT * P.Lsolve B = B)
    (hQR : ∀ v : E → K,
      (P.Ared_SqrtOmega * P.SqrtOmega_AredT) *ᵥ P.QRsolve v =
        P.Ared_SqrtOmega *ᵥ v)
    (hInj : ∀ u w : G → K,
      (P.Ared_SqrtOmega * P.SqrtOmega_AredT) *ᵥ u =
        (P.Ared_SqrtOmega * P.SqrtOmega_AredT) *ᵥ w → u = w) :
    ({ P with use_Cholesky := true } : SESyncProblemData K G E D).Pi_product X
      = ({ P with use_Cholesky := false } :
          SESyncProblemData K G E D).Pi_product X := by
  have key : ∀ c0 : C, (fun g => P.Lsolve (P.Ared_SqrtOmega * X) g c0) =
      P.QRsolve fun e2 => X e2 c0 := by
    intro c0
    apply hInj
    rw [← mul_col, hL, mul_col, ← hQR]
  show X - P.SqrtOmega_AredT * P.Lsolve (P.Ared_SqrtOmega * X) =
    Matrix.of fun e c =>
      X e c - (P.SqrtOmega_AredT *ᵥ P.QRsolve fun e2 => X e2 c) e
  ext e c
  simp only [Matrix.sub_apply, Matrix.of_apply]
  have step : (P.SqrtOmega_AredT * P.Lsolve (P.Ared_SqrtOmega * X)) e c =
      (P.SqrtOmega_AredT *ᵥ fun g => P.Lsolve (P.Ared_SqrtOmega * X) g c) e :=
    congrFun (mul_col P.SqrtOmega_AredT (P.Lsolve (P.Ared_SqrtOmega * X)) c) e
  rw [step, key c]

/-- Witness for C2 at the concrete one-dimensional instance whose solvers
invert the 1×1 Gram matrix 4 exactly. -/
theorem Pi_product_cholesky_qr_agree_witness :
    (∀ (C2 : Type) (B : Matrix (Fin 1) C2 ℚ),
      exampleProblem.Ared_SqrtOmega * exampleProblem.SqrtOmega_AredT *
        exampleProblem.Lsolve B = B) ∧
    (∀ v : Fin 1 → ℚ,
      (exampleProblem.Ared_SqrtOmega * exampleProblem.SqrtOmega_AredT) *ᵥ
          exampleProblem.QRsolve v =
        exampleProblem.Ared_SqrtOmega *ᵥ v) ∧
    (∀ u w : Fin 1 → ℚ,
      (exampleProblem.Ared_SqrtOmega * exampleProblem.SqrtOmega_AredT) *ᵥ u =
        (exampleProblem.Ared_SqrtOmega * exampleProblem.SqrtOmega_AredT) *ᵥ w →
        u = w) ∧
    ({ exampleProblem with use_Cholesky := true } :
        SESyncProblemData ℚ (Fin 1) (Fin 1) (Fin 1)).Pi_product exampleY =
      ({ exampleProblem with use_Cholesky := false } :
        SESyncProblemData ℚ (Fin 1) (Fin 1) (Fin 1)).Pi_product exampleY := by
  have hL : ∀ (C2 : Type) (B : Matrix (Fin 1) C2 ℚ),
      exampleProblem.Ared_SqrtOmega * exampleProblem.SqrtOmega_AredT *
        exampleProblem.Lsolve B = B := by
    intro C2 B
    ext g c
    fin_cases g
    simp [exampleProblem, Matrix.mul_apply]
    ring
  have hQR : ∀ v : Fin 1 → ℚ,
      (exampleProblem.Ared_SqrtOmega * exampleProblem.SqrtOmega_AredT) *ᵥ
          exampleProblem.QRsolve v =
        exampleProblem.Ared_SqrtOmega *ᵥ v := by
    intro v
    funext g
    fin_cases g
    simp [exampleProblem, Matrix.mulVec, Matrix.mul_apply, Matrix.dotProduct]
    ring
  have hInj : ∀ u w : Fin 1 → ℚ,
      (exampleProblem.Ared_SqrtOmega * exampleProblem.SqrtOmega_AredT) *ᵥ u =
        (exampleProblem.Ared_SqrtOmega * exampleProblem.SqrtOmega_AredT) *ᵥ w →
        u = w := by
    intro u w h
    have h0 := congrFun h 0
    simp [exampleProblem, Matrix.mulVec, Matrix.mul_apply,
      Matrix.dotProduct] at h0
    funext g
    have hg : g = 0 := Subsingleton.elim g 0
    rw [hg, h0]
  exact ⟨hL, hQR, hInj,
    Pi_product_cholesky_qr_agree exampleProblem exampleY hL hQR hInj⟩

/-- C7: `compute_S_minus_Lambda_min_eig` returns the solver's estimated
minimum eigenvalue and eigenvector together with its Boolean convergence
flag; the iteration cap, nonnegativity tolerance and Lanczos subspace size
are caller-configurable and passed through to the solver, and a false flag is
propagated verbatim to the caller — never masked, with no default result
substituted. -/
theorem compute_S_minus_Lambda_min_eig_flag {K N : Type}
    (solver : LanczosSolver K N) (op : (N → K) → N → K)
    (max_iterations : ℕ) (tol : K) (num_Lanczos_vectors : ℕ) :
    (compute_S_minus_Lambda_min_eig solver op max_iterations tol
        num_Lanczos_vectors).converged =
      (solver max_iterations tol num_Lanczos_vectors op).1 ∧
    (compute_S_minus_Lambda_min_eig solver op max_iterations tol
        num_Lanczos_vectors).min_eigenvalue =
      (solver max_iterations tol num_Lanczos_vectors op).2.1 ∧
    (compute_S_minus_Lambda_min_eig solver op max_iterations tol
        num_Lanczos_vectors).min_eigenvector =
      (solver max_iterations tol num_Lanczos_vectors op).2.2 :=
  ⟨rfl, rfl, rfl⟩

/-- C8: the spectral shift σ in `perform_op` shifts every eigenvalue of
S − Λ by exactly σ and leaves the eigenvectors — hence the eigenvector the
eigen-solver reports as extremal — unchanged: x is an eigenvector of the
shifted product with eigenvalue μ + σ precisely when it is an eigenvector of
the unshifted product S − Λ with eigenvalue μ. -/
theorem perform_op_shift {K1 G1 E1 : Type} {nn dd : ℕ} [Field K1] [Fintype G1]
    [Fintype E1] (P : SESyncProblemData K1 G1 E1 (Fin nn × Fin dd))
    (Lb : Fin nn → Matrix (Fin dd) (Fin dd) K1) (sigma mu : K1)
    (x : Fin nn × Fin dd → K1) :
    SMinusLambdaProdFunctor.perform_op P Lb sigma x = (mu + sigma) • x ↔
    SMinusLambdaProdFunctor.perform_op P Lb 0 x = mu • x := by
  constructor <;> intro h <;> funext i <;> have hi := congrFun h i <;>
    simp only [SMinusLambdaProdFunctor.perform_op, Pi.smul_apply,
      smul_eq_mul] at hi ⊢ <;> linear_combination hi

/-- C9: `set_relaxation_rank(r2)` changes only the relaxation rank: the
formulation tag and the counts n, m, d are unchanged, the rank accessor
afterwards returns r2, and a subsequent `random_sample()` produces a point of
shape r2 × (n·d) — the new rank is used with no problem rebuild. -/
theorem set_relaxation_rank_frame (P : SESyncState) (r2 : ℕ)
    (sample : ℕ → ℕ → ℚ) :
    (P.set_relaxation_rank r2).formulation = P.formulation ∧
    (P.set_relaxation_rank r2).num_poses = P.num_poses ∧
    (P.set_relaxation_rank r2).num_measurements = P.num_measurements ∧
    (P.set_relaxation_rank r2).dimension = P.dimension ∧
    (P.set_relaxation_rank r2).relaxation_rank = r2 ∧
    ((P.set_relaxation_rank r2).random_sample sample).rows = r2 ∧
    ((P.set_relaxation_rank r2).random_sample sample).cols =
      P.num_poses * P.dimension :=
  ⟨rfl, rfl, rfl, rfl, rfl, rfl, rfl⟩

/-- C10: a default-constructed `SESyncProblem` has n = m = d = r = 0, so
`num_poses`, `num_measurements`, `dimension` and `relaxation_rank` all return
0 on it, whatever the indeterminate formulation tag is. -/
theorem default_problem_accessors_zero (f : Formulation) :
    (defaultSESyncProblem f).num_poses = 0 ∧
    (defaultSESyncProblem f).num_measurements = 0 ∧
    (defaultSESyncProblem f).dimension = 0 ∧
    (defaultSESyncProblem f).relaxation_rank = 0 :=
  ⟨rfl, rfl, rfl, rfl⟩

/-- The transpose of the symmetric part of a block is itself. -/
lemma Sym_transpose {dd : ℕ} [Field K] (A : Matrix (Fin dd) (Fin dd) K) :
    (Sym A)ᵀ = Sym A := by
  simp [Sym, Matrix.transpose_smul, Matrix.transpose_add, add_comm]

/-- Taking the symmetric part of a block is idempotent. -/
lemma Sym_Sym {dd : ℕ} [Field K] (A : Matrix (Fin dd) (Fin dd) K) :
    Sym (Sym A) = Sym A := by
  have h : Sym (Sym A) = (2 : K)⁻¹ • (Sym A + Sym A) := by
    rw [show Sym (Sym A) = (2 : K)⁻¹ • (Sym A + (Sym A)ᵀ) from rfl,
      Sym_transpose]
  by_cases h2 : (2 : K) = 0
  · simp [h, Sym, h2]
  · rw [h, ← two_smul K (Sym A), smul_smul, inv_mul_cancel₀ h2, one_smul]

/-- The symmetric part is additive. -/
lemma Sym_add {dd : ℕ} [Field K] (A B : Matrix (Fin dd) (Fin dd) K) :
    Sym (A + B) = Sym A + Sym B := by
  simp only [Sym, Matrix.transpose_add, ← smul_add]
  congr 1
  abel

/-- The symmetric part respects subtraction. -/
lemma Sym_sub {dd : ℕ} [Field K] (A B : Matrix (Fin dd) (Fin dd) K) :
    Sym (A - B) = Sym A - Sym B := by
  simp only [Sym, Matrix.transpose_sub, ← smul_sub]
  congr 1
  abel

/-- The symmetric part commutes with scalar multiplication. -/
lemma Sym_smul {dd : ℕ} [Field K] (a : K) (A : Matrix (Fin dd) (Fin dd) K) :
    Sym (a • A) = a • Sym A := by
  rw [show Sym (a • A) = (2 : K)⁻¹ • (a • A + (a • A)ᵀ) from rfl,
    Matrix.transpose_smul, ← smul_add, smul_comm]
  rfl

/-- Two lifted matrices agree when all their pose blocks agree. -/
lemma ext_blocks {rr nn dd : ℕ}
    {A B : Matrix (Fin rr) (Fin nn × Fin dd) K}
    (h : ∀ i, blockOf A i = blockOf B i) : A = B := by
  ext p iq
  obtain ⟨i, q⟩ := iq
  exact congrFun (congrFun (h i) p) q

/-- Block extraction commutes with addition. -/
lemma blockOf_add {rr nn dd : ℕ} [Field K]
    (A B : Matrix (Fin rr) (Fin nn × Fin dd) K) (i : Fin nn) :
    blockOf (A + B) i = blockOf A i + blockOf B i := rfl

/-- Block extraction commutes with subtraction. -/
lemma blockOf_sub {rr nn dd : ℕ} [Field K]
    (A B : Matrix (Fin rr) (Fin nn × Fin dd) K) (i : Fin nn) :
    blockOf (A - B) i = blockOf A i - blockOf B i := rfl

/-- Block extraction commutes with scalar multiplication. -/
lemma blockOf_smul {rr nn dd : ℕ} [Field K] (a : K)
    (A : Matrix (Fin rr) (Fin nn × Fin dd) K) (i : Fin nn) :
    blockOf (a • A) i = a • blockOf A i := rfl

/-- The pose blocks of `SymBlockDiagProduct`. -/
lemma blockOf_SBD {rr nn dd : ℕ} [Field K]
    (A B W : Matrix (Fin rr) (Fin nn × Fin dd) K) (i : Fin nn) :
    blockOf (SymBlockDiagProduct A B W) i =
      blockOf A i * Sym ((blockOf B i)ᵀ * blockOf W i) := rfl

/-- The pose blocks of the tangent-space projection. -/
lemma blockOf_tsp {rr nn dd : ℕ} [Field K]
    (Y V : Matrix (Fin rr) (Fin nn × Fin dd) K) (i : Fin nn) :
    blockOf (tangent_space_projection Y V) i =
      blockOf V i - blockOf Y i * Sym ((blockOf Y i)ᵀ * blockOf V i) := rfl

/-- C5: for every feasible Y (orthonormal per-block columns) and every
ambient matrix V of matching shape, the tangent-space projection at Y is
idempotent: projecting the projection changes nothing. -/
theorem tangent_space_projection_idem {rr nn dd : ℕ} [Field K]
    (Y V : Matrix (Fin rr) (Fin nn × Fin dd) K) (hY : Feasible Y) :
    tangent_space_projection Y (tangent_space_projection Y V) =
      tangent_space_projection Y V := by
  apply ext_blocks
  intro i
  rw [blockOf_tsp, blockOf_tsp]
  have h : (blockOf Y i)ᵀ *
      (blockOf V i - blockOf Y i * Sym ((blockOf Y i)ᵀ * blockOf V i)) =
      (blockOf Y i)ᵀ * blockOf V i - Sym ((blockOf Y i)ᵀ * blockOf V i) := by
    rw [Matrix.mul_sub, ← Matrix.mul_assoc, hY i, Matrix.one_mul]
  rw [h, Sym_sub, Sym_Sym, sub_self, Matrix.mul_zero, sub_zero]

/-- Witness for C5 at a concrete feasible point of St(1,2) and a concrete
non-tangent ambient matrix. -/
theorem tangent_space_projection_idem_witness :
    Feasible exampleYpt ∧
    tangent_space_projection exampleYpt
        (tangent_space_projection exampleYpt exampleW) =
      tangent_space_projection exampleYpt exampleW := by
  have hY : Feasible exampleYpt := by
    intro i
    ext q q'
    fin_cases q
    fin_cases q'
    simp [exampleYpt, blockOf, Matrix.mul_apply, Matrix.one_apply,
      Fin.sum_univ_succ]
  exact ⟨hY, tangent_space_projection_idem exampleYpt exampleW hY⟩

/-- `SymBlockDiagProduct` is additive in its first argument. -/
lemma SBD_add_left {rr nn dd : ℕ} [Field K]
    (A1 A2 B W : Matrix (Fin rr) (Fin nn × Fin dd) K) :
    SymBlockDiagProduct (A1 + A2) B W =
      SymBlockDiagProduct A1 B W + SymBlockDiagProduct A2 B W := by
  apply ext_blocks
  intro i
  simp only [blockOf_add, blockOf_SBD, Matrix.add_mul]

/-- `SymBlockDiagProduct` commutes with scaling of its first argument. -/
lemma SBD_smul_left {rr nn dd : ℕ} [Field K] (a : K)
    (A B W : Matrix (Fin rr) (Fin nn × Fin dd) K) :
    SymBlockDiagProduct (a • A) B W = a • SymBlockDiagProduct A B W := by
  apply ext_blocks
  intro i
  simp only [blockOf_smul, blockOf_SBD, Matrix.smul_mul]

/-- `SymBlockDiagProduct` is additive in its third argument. -/
lemma SBD_add_right {rr nn dd : ℕ} [Field K]
    (A B W1 W2 : Matrix (Fin rr) (Fin nn × Fin dd) K) :
    SymBlockDiagProduct A B (W1 + W2) =
      SymBlockDiagProduct A B W1 + SymBlockDiagProduct A B W2 := by
  apply ext_blocks
  intro i
  simp only [blockOf_add, blockOf_SBD, Matrix.mul_add, Sym_add]

/-- `SymBlockDiagProduct` commutes with scaling of its third argument. -/
lemma SBD_smul_right {rr nn dd : ℕ} [Field K] (a : K)
    (A B W : Matrix (Fin rr) (Fin nn × Fin dd) K) :
    SymBlockDiagProduct A B (a • W) = a • SymBlockDiagProduct A B W := by
  apply ext_blocks
  intro i
  simp only [blockOf_smul, blockOf_SBD, Matrix.mul_smul, Sym_smul]

/-- The tangent-space projection is additive in its projected argument. -/
lemma tsp_add {rr nn dd : ℕ} [Field K]
    (Y W1 W2 : Matrix (Fin rr) (Fin nn × Fin dd) K) :
    tangent_space_projection Y (W1 + W2) =
      tangent_space_projection Y W1 + tangent_space_projection Y W2 := by
  unfold tangent_space_projection
  rw [SBD_add_right]
  abel

/-- The tangent-space projection commutes with scaling of its projected
argument. -/
lemma tsp_smul {rr nn dd : ℕ} [Field K] (a : K)
    (Y W : Matrix (Fin rr) (Fin nn × Fin dd) K) :
    tangent_space_projection Y (a • W) = a • tangent_space_projection Y W := by
  unfold tangent_space_projection
  rw [SBD_smul_right, smul_sub]

/-- The Frobenius inner product is subtractive on the left. -/
lemma frobInner_sub_left {α β : Type} [Fintype α] [Fintype β] [Field K]
    (A B Z : Matrix α β K) :
    frobInner (A - B) Z = frobInner A Z - frobInner B Z := by
  unfold frobInner
  simp [Matrix.sub_apply, sub_mul, Finset.sum_sub_distrib]

/-- The Frobenius inner product is subtractive on the right. -/
lemma frobInner_sub_right {α β : Type} [Fintype α] [Fintype β] [Field K]
    (A B Z : Matrix α β K) :
    frobInner Z (A - B) = frobInner Z A - frobInner Z B := by
  unfold frobInner
  simp [Matrix.sub_apply, mul_sub, Finset.sum_sub_distrib]

/-- The Frobenius inner product decomposes as a sum over pose blocks. -/
lemma frobInner_blocks {rr nn dd : ℕ} [Field K]
    (A B : Matrix (Fin rr) (Fin nn × Fin dd) K) :
    frobInner A B = ∑ i, frobInner (blockOf A i) (blockOf B i) := by
  unfold frobInner blockOf
  simp only [Matrix.of_apply, Fintype.sum_prod_type]
  exact Finset.sum_comm

/-- The Frobenius inner product as a trace. -/
lemma frobInner_eq_trace {α β : Type} [Fintype α] [Fintype β] [Field K]
    (A B : Matrix α β K) : frobInner A B = Matrix.trace (Aᵀ * B) := by
  unfold frobInner
  simp only [Matrix.trace, Matrix.diag, Matrix.mul_apply,
    Matrix.transpose_apply]
  exact Finset.sum_comm

/-- Commuting a symmetric part through a trace of a product. -/
lemma trace_Sym_mul {dd : ℕ} [Field K] (A B : Matrix (Fin dd) (Fin dd) K) :
    Matrix.trace (Sym A * B) = Matrix.trace (Aᵀ * Sym B) := by
  have h : Matrix.trace (Aᵀ * Bᵀ) = Matrix.trace (A * B) := by
    rw [← Matrix.transpose_mul, Matrix.trace_transpose, Matrix.trace_mul_comm]
  simp only [Sym, Matrix.smul_mul, Matrix.mul_smul, Matrix.add_mul,
    Matrix.mul_add, Matrix.trace_smul, Matrix.trace_add, h]
  congr 1
  exact add_comm _ _

/-- The tangent-space projection is self-adjoint for the Frobenius inner
product. -/
lemma frobInner_tsp {rr nn dd : ℕ} [Field K]
    (Y W Z : Matrix (Fin rr) (Fin nn × Fin dd) K) :
    frobInner (tangent_space_projection Y W) Z =
      frobInner W (tangent_space_projection Y Z) := by
  unfold tangent_space_projection
  rw [frobInner_sub_left, frobInner_sub_right]
  congr 1
  rw [frobInner_blocks, frobInner_blocks]
  apply Finset.sum_congr rfl
  intro i _
  rw [blockOf_SBD, blockOf_SBD, frobInner_eq_trace, frobInner_eq_trace,
    Matrix.transpose_mul, Sym_transpose, Matrix.mul_assoc, trace_Sym_mul,
    Matrix.transpose_mul, Matrix.transpose_transpose, Matrix.mul_assoc]

/-- The curvature-correction term of the Riemannian Hessian is self-adjoint
for the Frobenius inner product. -/
lemma frobInner_SBD_curv {rr nn dd : ℕ} [Field K]
    (Y nF U V : Matrix (Fin rr) (Fin nn × Fin dd) K) :
    frobInner (SymBlockDiagProduct U Y nF) V =
      frobInner U (SymBlockDiagProduct V Y nF) := by
  rw [frobInner_blocks, frobInner_blocks]
  apply Finset.sum_congr rfl
  intro i _
  rw [blockOf_SBD, blockOf_SBD, frobInner_eq_trace, frobInner_eq_trace,
    Matrix.transpose_mul, Sym_transpose, Matrix.mul_assoc,
    Matrix.trace_mul_comm, Matrix.mul_assoc]

/-- The ambient Euclidean Hessian-vector-product term is self-adjoint for
symmetric S. -/
lemma frobInner_Sterm {rr nn dd : ℕ} [Field K]
    {S : Matrix (Fin nn × Fin dd) (Fin nn × Fin dd) K} (hS : Sᵀ = S)
    (U V : Matrix (Fin rr) (Fin nn × Fin dd) K) :
    frobInner (((2 : K) • (S * Uᵀ))ᵀ) V =
      frobInner U (((2 : K) • (S * Vᵀ))ᵀ) := by
  rw [frobInner_eq_trace, frobInner_eq_trace, Matrix.transpose_transpose,
    Matrix.transpose_smul, Matrix.transpose_mul, Matrix.transpose_transpose,
    hS, Matrix.smul_mul, Matrix.mul_smul, Matrix.trace_smul,
    Matrix.trace_smul]
  congr 1
  rw [Matrix.mul_assoc, Matrix.trace_mul_comm, Matrix.mul_assoc]

/-- The ambient Euclidean Hessian-vector-product term is additive. -/
lemma Tterm_add {rr nn dd : ℕ} [Field K]
    (S : Matrix (Fin nn × Fin dd) (Fin nn × Fin dd) K)
    (X1 X2 : Matrix (Fin rr) (Fin nn × Fin dd) K) :
    ((2 : K) • (S * (X1 + X2)ᵀ))ᵀ =
      ((2 : K) • (S * X1ᵀ))ᵀ + ((2 : K) • (S * X2ᵀ))ᵀ := by
  rw [Matrix.transpose_add, Matrix.mul_add, smul_add, Matrix.transpose_add]

/-- The ambient Euclidean Hessian-vector-product term commutes with scalar
multiplication. -/
lemma Tterm_smul {rr nn dd : ℕ} [Field K]
    (S : Matrix (Fin nn × Fin dd) (Fin nn × Fin dd) K) (a : K)
    (X : Matrix (Fin rr) (Fin nn × Fin dd) K) :
    ((2 : K) • (S * (a • X)ᵀ))ᵀ = a • ((2 : K) • (S * Xᵀ))ᵀ := by
  rw [Matrix.transpose_smul a X, Matrix.mul_smul, smul_comm (2 : K) a,
    Matrix.transpose_smul]

/-- C3: the Riemannian Hessian-vector product is linear in its tangent-vector
argument and self-adjoint with respect to the trace inner product on the
tangent space at Y: for a symmetric quadratic-form matrix S, tangent vectors
U and V at Y and any scalars a, b, H(Y, a·U + b·V) = a·H(Y,U) + b·H(Y,V) and
<H(Y,U), V> = <U, H(Y,V)>. -/
theorem Riemannian_Hessian_linear_selfAdjoint {rr nn dd : ℕ} [Field K]
    (S : Matrix (Fin nn × Fin dd) (Fin nn × Fin dd) K)
    (Y nF U V : Matrix (Fin rr) (Fin nn × Fin dd) K) (a b : K)
    (hS : Sᵀ = S) (hU : IsTangent Y U) (hV : IsTangent Y V) :
    Riemannian_Hessian_vector_product S Y nF (a • U + b • V) =
        a • Riemannian_Hessian_vector_product S Y nF U +
          b • Riemannian_Hessian_vector_product S Y nF V ∧
    frobInner (Riemannian_Hessian_vector_product S Y nF U) V =
      frobInner U (Riemannian_Hessian_vector_product S Y nF V) := by
  have hU2 : tangent_space_projection Y U = U := hU
  have hV2 : tangent_space_projection Y V = V := hV
  constructor
  · unfold Riemannian_Hessian_vector_product
    rw [Tterm_add, Tterm_smul, Tterm_smul, tsp_add, tsp_smul, tsp_smul,
      SBD_add_left, SBD_smul_left, SBD_smul_left, smul_sub, smul_sub]
    abel
  · unfold Riemannian_Hessian_vector_product
    rw [frobInner_sub_left, frobInner_sub_right]
    congr 1
    · rw [frobInner_tsp, hV2, ← frobInner_tsp, hU2]
      exact frobInner_Sterm hS U V
    · exact frobInner_SBD_curv Y nF U V

/-- Witness for C3 at a concrete symmetric S, feasible point of St(1,2),
gradient matrix and two concrete tangent vectors, with a = 2 and b = 3. -/
theorem Riemannian_Hessian_linear_selfAdjoint_witness :
    exampleSᵀ = exampleS ∧
    IsTangent exampleYpt exampleU ∧
    IsTangent exampleYpt exampleV ∧
    (Riemannian_Hessian_vector_product exampleS exampleYpt exampleGrad
          ((2 : ℚ) • exampleU + (3 : ℚ) • exampleV) =
        (2 : ℚ) • Riemannian_Hessian_vector_product exampleS exampleYpt
            exampleGrad exampleU +
          (3 : ℚ) • Riemannian_Hessian_vector_product exampleS exampleYpt
            exampleGrad exampleV ∧
      frobInner (Riemannian_Hessian_vector_product exampleS exampleYpt
          exampleGrad exampleU) exampleV =
        frobInner exampleU (Riemannian_Hessian_vector_product exampleS
          exampleYpt exampleGrad exampleV)) := by
  have hS : exampleSᵀ = exampleS := by
    ext i j
    rfl
  have hU : IsTangent exampleYpt exampleU := by
    show tangent_space_projection exampleYpt exampleU = exampleU
    ext p iq
    obtain ⟨i, q⟩ := iq
    fin_cases p <;> fin_cases i <;> fin_cases q <;>
      simp [tangent_space_projection, SymBlockDiagProduct, Sym, blockOf,
        exampleYpt, exampleU, Matrix.mul_apply, Fin.sum_univ_succ]
  have hV : IsTangent exampleYpt exampleV := by
    show tangent_space_projection exampleYpt exampleV = exampleV
    ext p iq
    obtain ⟨i, q⟩ := iq
    fin_cases p <;> fin_cases i <;> fin_cases q <;>
      simp [tangent_space_projection, SymBlockDiagProduct, Sym, blockOf,
        exampleYpt, exampleV, Matrix.mul_apply, Fin.sum_univ_succ]
  exact ⟨hS, hU, hV,
    Riemannian_Hessian_linear_selfAdjoint exampleS exampleYpt exampleGrad
      exampleU exampleV 2 3 hS hU hV⟩

/-- Over the reals the conjugate transpose is the plain transpose. -/
lemma real_conjTranspose {α β : Type} (A : Matrix α β ℝ) : Aᴴ = Aᵀ := by
  ext i j
  simp [Matrix.conjTranspose_apply]

/-- At a feasible point, the blocks of a tangent vector satisfy
Sym(Y_iᵀ · V_i) = 0. -/
lemma tangent_Sym_zero {rr nn dd : ℕ} [Field K]
    (Y V : Matrix (Fin rr) (Fin nn × Fin dd) K) (hY : Feasible Y)
    (hV : IsTangent Y V) (i : Fin nn) :
    Sym ((blockOf Y i)ᵀ * blockOf V i) = 0 := by
  have hV2 : tangent_space_projection Y V = V := hV
  have h := congrArg (fun W => blockOf W i) hV2
  simp only [blockOf_tsp] at h
  have h2 : blockOf Y i * Sym ((blockOf Y i)ᵀ * blockOf V i) = 0 :=
    sub_eq_self.mp h
  calc Sym ((blockOf Y i)ᵀ * blockOf V i)
      = ((blockOf Y i)ᵀ * blockOf Y i) *
          Sym ((blockOf Y i)ᵀ * blockOf V i) := by
        rw [hY i, Matrix.one_mul]
    _ = (blockOf Y i)ᵀ *
          (blockOf Y i * Sym ((blockOf Y i)ᵀ * blockOf V i)) := by
        rw [Matrix.mul_assoc]
    _ = 0 := by rw [h2, Matrix.mul_zero]

/-- The per-block Gram matrix of Y + V at a feasible Y with tangent V is the
identity plus the tangent block's Gram matrix. -/
lemma gram_block {rr nn dd : ℕ} (Y V : Matrix (Fin rr) (Fin nn × Fin dd) ℝ)
    (hY : Feasible Y) (hV : IsTangent Y V) (i : Fin nn) :
    (blockOf (Y + V) i)ᵀ * blockOf (Y + V) i =
      1 + (blockOf V i)ᵀ * blockOf V i := by
  have hsym := tangent_Sym_zero Y V hY hV i
  have hzero : (blockOf Y i)ᵀ * blockOf V i +
      ((blockOf Y i)ᵀ * blockOf V i)ᵀ = 0 := by
    have h2 : ((2 : ℝ)⁻¹ : ℝ) ≠ 0 := by norm_num
    rw [show Sym ((blockOf Y i)ᵀ * blockOf V i) =
        (2 : ℝ)⁻¹ • ((blockOf Y i)ᵀ * blockOf V i +
          ((blockOf Y i)ᵀ * blockOf V i)ᵀ) from rfl] at hsym
    exact (smul_eq_zero.mp hsym).resolve_left h2
  rw [Matrix.transpose_mul, Matrix.transpose_transpose] at hzero
  calc (blockOf (Y + V) i)ᵀ * blockOf (Y + V) i
      = (blockOf Y i + blockOf V i)ᵀ * (blockOf Y i + blockOf V i) := by
        rw [blockOf_add]
    _ = (blockOf Y i)ᵀ * blockOf Y i + (blockOf Y i)ᵀ * blockOf V i +
        ((blockOf V i)ᵀ * blockOf Y i + (blockOf V i)ᵀ * blockOf V i) := by
        rw [Matrix.transpose_add, Matrix.add_mul, Matrix.mul_add,
          Matrix.mul_add]
    _ = 1 + ((blockOf Y i)ᵀ * blockOf V i +
          (blockOf V i)ᵀ * blockOf Y i) + (blockOf V i)ᵀ * blockOf V i := by
        rw [hY i]
        abel
    _ = 1 + (blockOf V i)ᵀ * blockOf V i := by
        rw [hzero, add_zero]

/-- The matrix 1 + VᵀV over the reals is nonsingular. -/
lemma det_one_add_transpose_mul_self {r2 d2 : ℕ}
    (V : Matrix (Fin r2) (Fin d2) ℝ) :
    ((1 : Matrix (Fin d2) (Fin d2) ℝ) + Vᵀ * V).det ≠ 0 := by
  intro hdet
  obtain ⟨x, hx, hmul⟩ := Matrix.exists_mulVec_eq_zero_iff.mpr hdet
  have h1 : x ⬝ᵥ ((1 + Vᵀ * V) *ᵥ x) = 0 := by
    rw [hmul, Matrix.dotProduct_zero]
  rw [Matrix.add_mulVec, Matrix.one_mulVec, Matrix.dotProduct_add] at h1
  have h2 : x ⬝ᵥ ((Vᵀ * V) *ᵥ x) = (V *ᵥ x) ⬝ᵥ (V *ᵥ x) := by
    rw [← Matrix.mulVec_mulVec, Matrix.dotProduct_mulVec,
      Matrix.vecMul_transpose]
  rw [h2] at h1
  have hnn1 : 0 ≤ x ⬝ᵥ x :=
    Finset.sum_nonneg fun j _ => mul_self_nonneg (x j)
  have hnn2 : 0 ≤ (V *ᵥ x) ⬝ᵥ (V *ᵥ x) :=
    Finset.sum_nonneg fun j _ => mul_self_nonneg ((V *ᵥ x) j)
  have hx0 : x ⬝ᵥ x = 0 := by linarith
  exact hx (Matrix.dotProduct_self_eq_zero.mp hx0)

/-- C4: for every feasible Y (each d-column block with orthonormal columns)
and every tangent vector V at Y, each d-column block of `retract(Y, V)` has
exactly orthonormal columns (so in particular ‖BᵀB − I‖ < 1e-8), including
for zero-norm V, where Y + V has the same polar factor as Y. -/
theorem retract_orthonormal {rr nn dd : ℕ}
    (Y V : Matrix (Fin rr) (Fin nn × Fin dd) ℝ) (hY : Feasible Y)
    (hV : IsTangent Y V) (i : Fin nn) :
    (blockOf (retract Y V) i)ᵀ * blockOf (retract Y V) i = 1 := by
  have hgram : (blockOf (Y + V) i)ᵀ * blockOf (Y + V) i =
      1 + (blockOf V i)ᵀ * blockOf V i := gram_block Y V hY hV i
  have psd := Matrix.posSemidef_conjTranspose_mul_self (blockOf (Y + V) i)
  have hconj : (blockOf (Y + V) i)ᴴ * blockOf (Y + V) i =
      (blockOf (Y + V) i)ᵀ * blockOf (Y + V) i := by
    rw [real_conjTranspose]
  have hSS : psd.sqrt * psd.sqrt =
      (blockOf (Y + V) i)ᵀ * blockOf (Y + V) i := psd.sqrt_mul_self.trans hconj
  have hSsym : psd.sqrtᵀ = psd.sqrt := by
    have h : psd.sqrtᴴ = psd.sqrt := psd.posSemidef_sqrt.1
    rwa [real_conjTranspose] at h
  have hdet : ((blockOf (Y + V) i)ᵀ * blockOf (Y + V) i).det ≠ 0 := by
    rw [hgram]
    exact det_one_add_transpose_mul_self (blockOf V i)
  have hdetS : IsUnit psd.sqrt.det := by
    refine isUnit_iff_ne_zero.mpr fun h0 => hdet ?_
    rw [← hSS, Matrix.det_mul, h0, mul_zero]
  have hblock : blockOf (retract Y V) i =
      blockOf (Y + V) i * psd.sqrt⁻¹ := rfl
  calc (blockOf (retract Y V) i)ᵀ * blockOf (retract Y V) i
      = (psd.sqrt⁻¹ᵀ * (blockOf (Y + V) i)ᵀ) *
          (blockOf (Y + V) i * psd.sqrt⁻¹) := by
        rw [hblock, Matrix.transpose_mul]
    _ = psd.sqrt⁻¹ * (((blockOf (Y + V) i)ᵀ * blockOf (Y + V) i) *
          psd.sqrt⁻¹) := by
        rw [Matrix.transpose_nonsing_inv, hSsym, Matrix.mul_assoc,
          ← Matrix.mul_assoc ((blockOf (Y + V) i)ᵀ)]
    _ = psd.sqrt⁻¹ * ((psd.sqrt * psd.sqrt) * psd.sqrt⁻¹) := by rw [hSS]
    _ = (psd.sqrt⁻¹ * psd.sqrt) * (psd.sqrt * psd.sqrt⁻¹) := by
        rw [Matrix.mul_assoc psd.sqrt psd.sqrt, ← Matrix.mul_assoc]
    _ = 1 := by
        rw [Matrix.nonsing_inv_mul _ hdetS, Matrix.mul_nonsing_inv _ hdetS,
          Matrix.one_mul]

/-- Witness for C4 at a concrete feasible point of St(1,1) over the reals
with the zero tangent vector. -/
theorem retract_orthonormal_witness :
    Feasible exampleYreal ∧ IsTangent exampleYreal exampleVreal ∧
    (blockOf (retract exampleYreal exampleVreal) 0)ᵀ *
        blockOf (retract exampleYreal exampleVreal) 0 = 1 := by
  have hY : Feasible exampleYreal := by
    intro i
    ext q q2
    fin_cases q
    fin_cases q2
    simp [exampleYreal, blockOf, Matrix.mul_apply, Matrix.one_apply]
  have hV : IsTangent exampleYreal exampleVreal := by
    show tangent_space_projection exampleYreal exampleVreal = exampleVreal
    ext p iq
    obtain ⟨i, q⟩ := iq
    fin_cases p
    fin_cases i
    fin_cases q
    simp [tangent_space_projection, SymBlockDiagProduct, Sym, blockOf,
      exampleYreal, exampleVreal, Matrix.mul_apply]
  exact ⟨hY, hV, retract_orthonormal exampleYreal exampleVreal hY hV 0⟩

/-- A function on poses that vanishes at the gauge pose and is constant along
every measurement edge yields (through its restriction to the non-gauge
poses) a kernel vector of the reduced-incidence Gram matrix. -/
lemma reducedGram_mulVec_indicator {nn dd : ℕ} [Field K]
    (meas : List (Measurement (nn + 1) dd K)) (chi : Fin (nn + 1) → K)
    (hchi0 : chi 0 = 0)
    (hedge : ∀ e : Fin meas.length,
      chi (meas.get e).i = chi (meas.get e).j) :
    reducedGram meas *ᵥ (fun k => chi k.succ) = 0 := by
  have haux : ∀ (w : Fin (nn + 1)) (c : K),
      (∑ k : Fin nn, (if k.succ = w then c else 0) * chi k.succ) =
        c * chi w := by
    intro w c
    by_cases hw : w = 0
    · subst hw
      rw [hchi0, mul_zero]
      refine Finset.sum_eq_zero fun k _ => ?_
      rw [if_neg (Fin.succ_ne_zero k), zero_mul]
    · have hk1 : (w.pred hw).succ = w := Fin.succ_pred w hw
      have hterm : ∀ k : Fin nn, (if k.succ = w then c else 0) * chi k.succ =
          if k = w.pred hw then c * chi w else 0 := by
        intro k
        by_cases hk : k = w.pred hw
        · subst hk
          rw [if_pos hk1, if_pos rfl, hk1]
        · have hne : k.succ ≠ w := by
            intro h
            rw [← hk1] at h
            exact hk (Fin.succ_injective _ h)
          rw [if_neg hne, zero_mul, if_neg hk]
      rw [Finset.sum_congr rfl fun k _ => hterm k, Finset.sum_ite_eq']
      simp
  have hAred : (reducedIncidence meas)ᵀ *ᵥ (fun k => chi k.succ) = 0 := by
    funext e
    have hstep : ((reducedIncidence meas)ᵀ *ᵥ fun k => chi k.succ) e =
        ∑ k : Fin nn,
          ((if k.succ = (meas.get e).i then (-1 : K) else 0) * chi k.succ +
            (if k.succ = (meas.get e).j then (1 : K) else 0) * chi k.succ) := by
      simp [Matrix.mulVec, Matrix.dotProduct, Matrix.transpose_apply,
        reducedIncidence, incidence, add_mul]
    rw [hstep, Finset.sum_add_distrib, haux, haux, hedge e]
    simp
  calc reducedGram meas *ᵥ (fun k => chi k.succ)
      = reducedIncidence meas *ᵥ (transWeights meas *ᵥ
          ((reducedIncidence meas)ᵀ *ᵥ fun k => chi k.succ)) := by
        rw [reducedGram, Matrix.mulVec_mulVec, Matrix.mulVec_mulVec]
    _ = 0 := by rw [hAred, Matrix.mulVec_zero, Matrix.mulVec_zero]

/-- C6: for every measurement list whose underlying graph is disconnected
after gauge-fixing, constructing an SESyncProblem in the implicit
(`Simplified`) formulation fails with a construction-time error — the
reduced-incidence Gram matrix is singular, the failure is surfaced as an
error value and no problem object is returned. -/
theorem construct_disconnected_error {nn dd : ℕ} [Field K] [DecidableEq K]
    (meas : List (Measurement (nn + 1) dd K)) (r0 : ℕ)
    (hdis : ¬ GraphConnected meas) :
    constructSESyncProblem meas Formulation.Simplified r0 =
      Except.error
        "construction failed: singular reduced incidence Gram matrix" := by
  classical
  obtain ⟨v0, hv0⟩ := not_forall.mp hdis
  have hv0ne : v0 ≠ 0 := by
    intro h
    exact hv0 (h ▸ Relation.ReflTransGen.refl)
  set chi : Fin (nn + 1) → K :=
    fun v => if Relation.ReflTransGen (EdgeStep meas) 0 v then 0 else 1
    with hchidef
  have hchi0 : chi 0 = 0 := if_pos Relation.ReflTransGen.refl
  have hedge : ∀ e : Fin meas.length,
      chi (meas.get e).i = chi (meas.get e).j := by
    intro e
    have hmem : meas.get e ∈ meas := List.get_mem meas e.1 e.2
    by_cases hri :
      Relation.ReflTransGen (EdgeStep meas) 0 (meas.get e).i
    · have hrj : Relation.ReflTransGen (EdgeStep meas) 0 (meas.get e).j :=
        hri.tail ⟨meas.get e, hmem, Or.inl ⟨rfl, rfl⟩⟩
      simp only [hchidef]
      rw [if_pos hri, if_pos hrj]
    · by_cases hrj :
        Relation.ReflTransGen (EdgeStep meas) 0 (meas.get e).j
      · exact absurd (hrj.tail ⟨meas.get e, hmem, Or.inr ⟨rfl, rfl⟩⟩) hri
      · simp only [hchidef]
        rw [if_neg hri, if_neg hrj]
  have hker := reducedGram_mulVec_indicator meas chi hchi0 hedge
  have hx : (fun k : Fin nn => chi k.succ) ≠ 0 := by
    intro h
    have h1 := congrFun h (v0.pred hv0ne)
    rw [Fin.succ_pred] at h1
    simp only [hchidef, Pi.zero_apply] at h1
    rw [if_neg hv0] at h1
    exact one_ne_zero h1
  have hdet : (reducedGram meas).det = 0 :=
    Matrix.exists_mulVec_eq_zero_iff.mp ⟨_, hx, hker⟩
  unfold constructSESyncProblem
  rw [if_pos ⟨rfl, hdet⟩]

/-- Witness for C6: two poses and no measurements form a disconnected graph,
and implicit-formulation construction reports the error. -/
theorem construct_disconnected_error_witness :
    ¬ GraphConnected ([] : List (Measurement 2 3 ℚ)) ∧
    constructSESyncProblem ([] : List (Measurement 2 3 ℚ))
        Formulation.Simplified 5 =
      Except.error
        "construction failed: singular reduced incidence Gram matrix" := by
  have hdis : ¬ GraphConnected ([] : List (Measurement 2 3 ℚ)) := by
    intro h
    rcases (Relation.ReflTransGen.cases_head (h 1)) with h01 | ⟨c, hc, _⟩
    · exact absurd h01 (by decide)
    · rcases hc with ⟨mu, hmu, _⟩
      simp at hmu
  exact ⟨hdis,
    construct_disconnected_error ([] : List (Measurement 2 3 ℚ)) 5 hdis⟩

end SESync
